import Mathlib

/-!
Verification of the Scribl layout core: a shallow embedding of the scale
conversions, the greedy lane allocator, the region slicer, the tick planner
and the collapse merger, translated from the JavaScript sources
(Scribl, Scribl::Track, Scribl::Glyph), with theorems settling the stated
layout properties.  All coordinate arithmetic is carried out over the
rationals, which model the exact real arithmetic the code performs on
ordinary finite numbers.
-/

set_option maxHeartbeats 1000000

/-- A genomic feature (a Glyph in the source): `position` and `length` in
coordinate units (nucleotides), plus the displayed `name`.  Translated from
`Glyph.init`, keeping exactly the fields the layout logic reads. -/
structure Feature where
  position : ℚ
  length : ℚ
  name : String
deriving DecidableEq

/-- End coordinate of a feature, from `Glyph.getEnd`:
`this.position + this.length`. -/
def Feature.getEnd (f : Feature) : ℚ := f.position + f.length

/-- A track (Scribl::Track): an ordered list of lanes, each lane an
insertion-ordered list of features, together with the optional per-track
draw style.  A lane is kept as a bare list of features. -/
structure Track where
  lanes : List (List Feature)
  drawStyle : Option String
deriving DecidableEq, Inhabited

/-- The chart state read by the layout logic (`Scribl.init`): the pixel
`width` of the drawing area, the scale domain `scaleMin`/`scaleMax`
(`this.scale.min` and `this.scale.max`), and the list of tracks. -/
structure Chart where
  width : ℚ
  scaleMin : ℚ
  scaleMax : ℚ
  tracks : List Track
deriving DecidableEq

/-- `Scribl.pixelsToNts(pixels)` called with an argument:
`this.width / (this.scale.max - this.scale.min) * pixels`.  Despite the
name, this multiplies by the pixels-per-nucleotide factor, and every caller
in the source uses it to convert nucleotides into pixels. -/
def pixelsToNts (c : Chart) (pixels : ℚ) : ℚ :=
  c.width / (c.scaleMax - c.scaleMin) * pixels

/-- `Scribl.pixelsToNts()` called with no argument:
`this.width / (this.scale.max - this.scale.min)`. -/
def pixelsToNts0 (c : Chart) : ℚ :=
  c.width / (c.scaleMax - c.scaleMin)

/-- `Scribl.ntsToPixels(nts)` called with an argument: `nts / this.width`.
Note that this branch does not depend on the scale domain at all, unlike
the no-argument branch directly below it. -/
def ntsToPixels (c : Chart) (nts : ℚ) : ℚ := nts / c.width

/-- `Scribl.ntsToPixels()` called with no argument:
`1 / this.pixelsToNts()`. -/
def ntsToPixels0 (c : Chart) : ℚ := 1 / pixelsToNts0 c

/-- Modelled from the spec: the Lane class is not among the provided source
files (only its callers are).  Section 3 of the spec describes a Lane as an
insertion-ordered sequence of features, so `Lane.addFeature` appends the
feature at the end of the lane. -/
def laneAddFeature (lane : List Feature) (f : Feature) : List Feature :=
  lane ++ [f]

/-- The lane scan of `Track.addFeature`: walk the lanes in creation order,
inspect only the last feature `prev` of each lane, and put the new feature
into the first lane whose last feature satisfies
`feature.position - gap > prev.position + prev.length`; a lane whose last
feature is undefined is skipped, and when no lane accepts, a fresh lane
holding only the feature is appended at the end. -/
def trackPlace (gap : ℚ) (f : Feature) : List (List Feature) → List (List Feature)
  | [] => [laneAddFeature [] f]
  | lane :: rest =>
    match lane.getLast? with
    | some prev =>
      if f.position - gap > prev.position + prev.length then
        laneAddFeature lane f :: rest
      else
        lane :: trackPlace gap f rest
    | none => lane :: trackPlace gap f rest

/-- `Track.addFeature(feature)`: the gap used by the lane scan is
`3 / this.chart.pixelsToNts()`, three pixel widths expressed in coordinate
units. -/
def trackAddFeature (c : Chart) (t : Track) (f : Feature) : Track :=
  Track.mk (trackPlace (3 / pixelsToNts0 c) f t.lanes) t.drawStyle

/-- `Scribl.addFeature(feature)`:
`var track = this.tracks[0] || this.addTrack(); track.addFeature(feature);
return feature;` where `Scribl.addTrack` pushes a fresh track with no lanes
and an undefined draw style. -/
def scriblAddFeature (c : Chart) (f : Feature) : Chart × Feature :=
  match c.tracks with
  | [] =>
    (Chart.mk c.width c.scaleMin c.scaleMax
      [trackAddFeature c (Track.mk [] none) f], f)
  | t :: ts =>
    (Chart.mk c.width c.scaleMin c.scaleMax
      (trackAddFeature c t f :: ts), f)

/-- `Glyph.clone`.  The body reads a variable `f` that is never declared in
its scope, and builds the constructor call by string concatenation with no
space after `new`, so every call throws a ReferenceError before any field
is copied.  The embedding therefore returns that error. -/
def cloneGlyph (_f : Feature) : Except String Feature :=
  Except.error "ReferenceError: f is not defined"

/-- The per-feature decision of `Scribl.slice`: the features the slice adds
to the mirrored lane for one source feature, or the error thrown while
producing them.  The branch order and every inequality follow the source;
`type` defaults to `inclusive` at the call site, and an unknown mode string
matches no branch and adds nothing. -/
def sliceFeature (ty : String) (frm til : ℚ) (f : Feature) :
    Except String (List Feature) :=
  let s := f.position
  let e := f.position + f.length
  if ty = "inclusive" then
    if frm ≤ s ∧ s ≤ til then Except.ok [f]
    else if frm < e ∧ e < til then Except.ok [f]
    else if s < frm ∧ til < e then Except.ok [f]
    else if frm < s ∧ e < til then Except.ok [f]
    else Except.ok []
  else if ty = "strict" then
    if frm ≤ s ∧ s ≤ til then
      if frm < e ∧ e < til then Except.ok [f]
      else
        match cloneGlyph f with
        | Except.error msg => Except.error msg
        | Except.ok g => Except.ok [Feature.mk g.position |til - s| g.name]
    else if frm < e ∧ e < til then
      match cloneGlyph f with
      | Except.error msg => Except.error msg
      | Except.ok g => Except.ok [Feature.mk frm |e - frm| g.name]
    else if s < frm ∧ til < e then
      match cloneGlyph f with
      | Except.error msg => Except.error msg
      | Except.ok g => Except.ok [Feature.mk frm |til - frm| g.name]
    else Except.ok []
  else if ty = "exclusive" then
    if frm ≤ s ∧ s ≤ til ∧ frm < e ∧ e < til then Except.ok [f]
    else Except.ok []
  else Except.ok []

/-- The inclusive-mode inclusion test of `Scribl.slice`, as the code writes
it: the disjunction of its four branch conditions. -/
def inclusiveTest (frm til : ℚ) (f : Feature) : Bool :=
  decide ((frm ≤ f.position ∧ f.position ≤ til) ∨
    (frm < f.position + f.length ∧ f.position + f.length < til) ∨
    (f.position < frm ∧ til < f.position + f.length) ∨
    (frm < f.position ∧ f.position + f.length < til))

/-- One lane of `Scribl.slice`: the features of the source lane are
examined in order, and the first thrown error aborts the pass. -/
def sliceLane (ty : String) (frm til : ℚ) :
    List Feature → Except String (List Feature)
  | [] => Except.ok []
  | f :: fs =>
    match sliceFeature ty frm til f with
    | Except.error msg => Except.error msg
    | Except.ok xs =>
      match sliceLane ty frm til fs with
      | Except.error msg => Except.error msg
      | Except.ok ys => Except.ok (xs ++ ys)

/-- One track of `Scribl.slice`: a fresh lane is created for every source
lane (`newLane = newTrack.addLane()`), so even emptied lanes survive in the
mirrored structure. -/
def sliceTrack (ty : String) (frm til : ℚ) :
    List (List Feature) → Except String (List (List Feature))
  | [] => Except.ok []
  | l :: ls =>
    match sliceLane ty frm til l with
    | Except.error msg => Except.error msg
    | Except.ok l2 =>
      match sliceTrack ty frm til ls with
      | Except.error msg => Except.error msg
      | Except.ok ls2 => Except.ok (l2 :: ls2)

/-- `Scribl.slice(from, to, type)` restricted to the track, lane and feature
structure it builds: the new chart mirrors the track and lane grouping of
the original, each new track copying the draw style of its source track.
The source performs no validation of the range whatsoever. -/
def scriblSlice (ts : List Track) (frm til : ℚ) (ty : String) :
    Except String (List Track) :=
  match ts with
  | [] => Except.ok []
  | t :: rest =>
    match sliceTrack ty frm til t.lanes with
    | Except.error msg => Except.error msg
    | Except.ok ls =>
      match scriblSlice rest frm til ty with
      | Except.error msg => Except.error msg
      | Except.ok rest2 => Except.ok (Track.mk ls t.drawStyle :: rest2)

/-- A feature value occurs somewhere in a list of tracks. -/
def memLayout (f : Feature) (ts : List Track) : Prop :=
  ∃ t ∈ ts, ∃ l ∈ t.lanes, f ∈ l

instance (f : Feature) (ts : List Track) : Decidable (memLayout f ts) := by
  unfold memLayout; infer_instance

/-- The lane gap invariant relation: the later feature `g` starts more than
`gap` coordinate units after the earlier feature `f` ends. -/
def gapR (gap : ℚ) (f g : Feature) : Prop :=
  g.position - gap > f.position + f.length

/-- Truncating conversion to an integer, as JavaScript applies to the
dividend and divisor of `%` and to `parseInt` of a finite decimal number:
rounding toward zero. -/
def jsTrunc (q : ℚ) : ℤ := if 0 ≤ q then ⌊q⌋ else ⌈q⌉

/-- The JavaScript remainder operator `a % b`: `a - b * trunc(a / b)`, so
the result carries the sign of `a`. -/
def jsRem (a b : ℚ) : ℚ := a - b * (jsTrunc (a / b) : ℚ)

/-- `Math.round`: round half toward positive infinity. -/
def jsRound (q : ℚ) : ℤ := ⌊q + 1/2⌋

/-- Domain prettifying of the scale minimum (`Scribl.draw`):
`this.scale.min -= this.scale.min % this.tick.major.size`. -/
def prettifyMin (mn size : ℚ) : ℚ := mn - jsRem mn size

/-- Domain prettifying of the scale maximum (`Scribl.draw`):
`Math.round(this.scale.max / this.tick.major.size + .4) *
this.tick.major.size`. -/
def prettifyMax (mx size : ℚ) : ℚ := (jsRound (mx / size + 2/5) : ℚ) * size

/-- Decimal digit count of a natural number: the length of its JavaScript
string rendering `(n + '').length`, with one digit for 0. -/
def numDigits (n : ℕ) : ℕ := Nat.log 10 n + 1

/-- The rounding and snapping stage of `Scribl.determineMajorTick`, applied
to the irregular tick `(max - min) / numtimes`: round up to a multiple of
the power of ten just below the value, then snap the leading digit to 0.5
when it lies in (0.1, 0.5] and to 1 when it exceeds 0.5. -/
def majorTickSnap (irregular : ℚ) : ℚ :=
  let baseNum : ℚ := (10 : ℚ) ^ (numDigits (jsTrunc irregular).toNat - 1)
  let tick : ℚ := (⌈irregular / baseNum⌉ : ℚ) * baseNum
  let digits : ℕ := numDigits (jsTrunc tick).toNat
  let places : ℚ := (10 : ℚ) ^ digits
  let fd : ℚ := tick / places
  let fd2 : ℚ :=
    if 1/10 < fd ∧ fd ≤ 1/2 then 1/2
    else if 1/2 < fd then 1
    else fd
  fd2 * places

/-- `Scribl.determineMajorTick` with the measured label width abstracted
into a parameter: `numtimes = width / (labelWidth + buffer)` and the
irregular tick `(max - min) / numtimes` is snapped by `majorTickSnap`. -/
def determineMajorTick (labelWidth buffer width mn mx : ℚ) : ℚ :=
  majorTickSnap ((mx - mn) / (width / (labelWidth + buffer)))

/-- Rendering of the scaled value `r / 10^e` the way JavaScript prints the
number: the integer part, and the fractional digits with trailing zeros
dropped (no fractional part at all when it is zero). -/
def renderScaled (r e : ℕ) : String :=
  let ip := r / 10 ^ e
  let fp := r % 10 ^ e
  if fp = 0 then Nat.repr ip
  else
    let ds := Nat.repr fp
    let padded := String.mk (List.replicate (e - ds.length) '0') ++ ds
    let frac := String.mk ((padded.data.reverse.dropWhile (fun c => c == '0')).reverse)
    Nat.repr ip ++ "." ++ frac

/-- `Scribl.getTickText`, the display formatter, with `tick.auto` enabled:
values at or above 1e6 are shown in units of m rounded to five decimal
places, values at or above 1e3 in units of k rounded to two decimal places,
and smaller values verbatim.  For a natural tick value `t` both scalings
reduce to `Math.round(t / 10) = (t + 5) / 10` displayed at the matching
power of ten. -/
def getTickText (t : ℕ) : String :=
  if 1000000 ≤ t then renderScaled ((t + 5) / 10) 5 ++ "m"
  else if 1000 ≤ t then renderScaled ((t + 5) / 10) 2 ++ "k"
  else Nat.repr t

/-- `Scribl.getTickTextDecimalPlaces`, the width-estimation formatter, with
`tick.auto` enabled: the scaled value `Math.round(t / 10)` is appended as a
bare integer numeral before the suffix. -/
def getTickTextDecimalPlaces (t : ℕ) : String :=
  if 1000000 ≤ t then Nat.repr ((t + 5) / 10) ++ "m"
  else if 1000 ≤ t then Nat.repr ((t + 5) / 10) ++ "k"
  else Nat.repr t

/-- The collapse scan of `Track.draw` with the outer loop over runs and the
inner merge loop fused into one pass.  `run` is the feature as currently
mutated for drawing; `acc` holds, in reverse, the original features already
absorbed into the current run (the source restores
`features[j].length`/`name` after drawing, so the array keeps the original
values).  A feature starting at or before the current run end is merged:
the run length becomes `max(runEnd, feature.end) - runStart` and the run
name is blanked; a feature starting after the run end closes the run and
starts a new one.  Returns the runs as drawn and the feature array after
the pass. -/
def collapseGo (run : Feature) (acc : List Feature) :
    List Feature → List Feature × List Feature
  | [] => ([run], acc.reverse)
  | g :: gs =>
    if g.position ≤ run.getEnd then
      collapseGo (Feature.mk run.position (max run.getEnd g.getEnd - run.position) "")
        (g :: acc) gs
    else
      let r := collapseGo g [g] gs
      (run :: r.1, acc.reverse ++ r.2)

/-- The whole collapse pass of `Track.draw` on the concatenated,
position-sorted feature list of a track: first component the merged runs as
drawn, second component the underlying feature list after the pass. -/
def collapsePass : List Feature → List Feature × List Feature
  | [] => ([], [])
  | f :: fs => collapseGo f [f] fs

instance {α β : Type} [DecidableEq α] [DecidableEq β] : DecidableEq (Except α β) := fun a b =>
  match a, b with
  | Except.ok x, Except.ok y => decidable_of_iff (x = y) (by simp)
  | Except.error x, Except.error y => decidable_of_iff (x = y) (by simp)
  | Except.ok _, Except.error _ => isFalse (by simp)
  | Except.error _, Except.ok _ => isFalse (by simp)

/-- C1: for the scale min 0, max 200 on a 100 pixel wide chart, converting
the coordinate 100 to pixels with `pixelsToNts` and back with `ntsToPixels`
returns 1/2, not 100: the composite equals `x / (max - min)`, because the
argument branch of `ntsToPixels` divides by the width alone and ignores the
scale, contradicting both the round-trip guarantee and the documentation of
`ntsToPixels` itself. -/
theorem ntsToPixels_pixelsToNts_no_roundtrip :
    ntsToPixels (Chart.mk 100 0 200 []) (pixelsToNts (Chart.mk 100 0 200 []) 100) = 1/2 ∧
    ((1 : ℚ)/2 ≠ 100) := by
  constructor
  · norm_num [ntsToPixels, pixelsToNts]
  · norm_num

/-- C4: slicing the feature at position 50 of length 200 strictly to the
range 100 to 150 does not produce the clone with position 100 and length 50
promised by the spec: the strict branch calls `Glyph.clone`, which throws a
ReferenceError on every call, so the whole slice fails. -/
theorem slice_strict_clone_throws :
    scriblSlice [Track.mk [[Feature.mk 50 200 "x"]] none] 100 150 "strict" =
      Except.error "ReferenceError: f is not defined" := by
  norm_num [scriblSlice, sliceTrack, sliceLane, sliceFeature, cloneGlyph,
    show (("strict" : String) = "inclusive") = False from by decide]

/-- Helper: the post-pass feature list of the fused collapse scan is the
accumulator reversed followed by the unvisited features. -/
theorem collapseGo_snd (l : List Feature) :
    ∀ (run : Feature) (acc : List Feature),
      (collapseGo run acc l).2 = acc.reverse ++ l := by
  induction l with
  | nil => intro run acc; simp [collapseGo]
  | cons g gs ih =>
    intro run acc
    by_cases h : g.position ≤ run.getEnd
    · simp [collapseGo, if_pos h, ih]
    · simp [collapseGo, if_neg h, ih]

/-- C6: the collapse pass on the single-lane features [0,10), [5,15) and
[20,25) produces exactly two runs, [0,15) with a blanked label and [20,25)
with its label intact, and for every feature list the underlying features
keep their original position, length and name after the pass. -/
theorem collapsePass_runs_and_restores :
    (collapsePass [Feature.mk 0 10 "a", Feature.mk 5 10 "b", Feature.mk 20 5 "c"]).1 =
      [Feature.mk 0 15 "", Feature.mk 20 5 "c"] ∧
    ∀ fs : List Feature, (collapsePass fs).2 = fs := by
  constructor
  · norm_num [collapsePass, collapseGo, Feature.getEnd]
  · intro fs
    cases fs with
    | nil => rfl
    | cons f fs => simp [collapsePass, collapseGo_snd]

/-- C7 (counterexample): prettifying the domain minimum -7 with major tick
size 5 yields -5, which is not at or below -7, and prettifying the maximum
1000 with tick size 1000 yields 1000 itself, which is not strictly above
the maximum; the maximum 1010 is even lowered to 1000. -/
theorem prettifyDomain_counterexample :
    prettifyMin (-7) 5 = -5 ∧ ¬ prettifyMin (-7) 5 ≤ -7 ∧
    prettifyMax 1000 1000 = 1000 ∧ ¬ (1000 : ℚ) < prettifyMax 1000 1000 ∧
    prettifyMax 1010 1000 = 1000 := by
  have hc : jsTrunc ((-7 : ℚ) / 5) = -1 := by
    unfold jsTrunc
    rw [if_neg (by norm_num)]
    norm_num [Int.ceil_eq_iff]
  have h1 : prettifyMin (-7) 5 = -5 := by
    unfold prettifyMin jsRem
    rw [hc]; norm_num
  have h2 : prettifyMax 1000 1000 = 1000 := by
    norm_num [prettifyMax, jsRound, Int.floor_eq_iff]
  have h3 : prettifyMax 1010 1000 = 1000 := by
    norm_num [prettifyMax, jsRound, Int.floor_eq_iff]
  refine ⟨h1, by rw [h1]; norm_num, h2, by rw [h2]; norm_num, h3⟩

/-- C9: for every tick value at or above 1000 the width-estimation
formatter appends the integer `Math.round(t / 10)` as a bare numeral before
the k or m suffix, and at the value 1990 this yields a strictly shorter
string (199k) than the display formatter (1.99k) produces. -/
theorem estimation_formatter_integer :
    (∀ t : ℕ, 1000 ≤ t →
        getTickTextDecimalPlaces t =
          Nat.repr ((t + 5) / 10) ++ (if 1000000 ≤ t then "m" else "k")) ∧
    (getTickTextDecimalPlaces 1990).length < (getTickText 1990).length := by
  constructor
  · intro t ht
    unfold getTickTextDecimalPlaces
    split_ifs with h1 <;> rfl
  · decide

/-- C9 witness at the tick value 1500. -/
theorem estimation_formatter_integer_witness :
    1000 ≤ 1500 ∧
    getTickTextDecimalPlaces 1500 =
      Nat.repr ((1500 + 5) / 10) ++ (if 1000000 ≤ 1500 then "m" else "k") :=
  ⟨by decide, estimation_formatter_integer.1 1500 (by decide)⟩

/-- Helper: placing a feature with the lane scan adds exactly that feature
to the flattened lane contents, up to permutation. -/
theorem trackPlace_join_perm (gap : ℚ) (f : Feature) :
    ∀ lanes : List (List Feature),
      ((trackPlace gap f lanes).flatten).Perm (f :: lanes.flatten) := by
  intro lanes
  induction lanes with
  | nil => simp [trackPlace, laneAddFeature]
  | cons lane rest ih =>
    cases hl : lane.getLast? with
    | some prev =>
      by_cases hc : f.position - gap > prev.position + prev.length
      · simp only [trackPlace, hl, if_pos hc, laneAddFeature, List.flatten_cons]
        rw [List.append_assoc]
        exact List.perm_middle
      · simp only [trackPlace, hl, if_neg hc, List.flatten_cons]
        exact (ih.append_left lane).trans List.perm_middle
    | none =>
      simp only [trackPlace, hl, List.flatten_cons]
      exact (ih.append_left lane).trans List.perm_middle

/-- C10: the chart-level `addFeature` returns the very feature it was
given, leaves every track after the first untouched, creates exactly one
track when none exists, and adds exactly one copy of the feature to the
first track (its flattened lane contents gain `f` and nothing else). -/
theorem scriblAddFeature_first_track (c : Chart) (f : Feature) :
    (scriblAddFeature c f).2 = f ∧
    (scriblAddFeature c f).1.tracks.length = max 1 c.tracks.length ∧
    (scriblAddFeature c f).1.tracks.tail = c.tracks.tail ∧
    (((scriblAddFeature c f).1.tracks.headD (Track.mk [] none)).lanes.flatten).Perm
      (f :: (c.tracks.headD (Track.mk [] none)).lanes.flatten) := by
  cases htr : c.tracks with
  | nil =>
    refine ⟨by simp [scriblAddFeature, htr], ?_, ?_, ?_⟩
    · simp [scriblAddFeature, htr]
    · simp [scriblAddFeature, htr]
    · simp [scriblAddFeature, htr, trackAddFeature, trackPlace, laneAddFeature]
  | cons t ts =>
    refine ⟨by simp [scriblAddFeature, htr], ?_, ?_, ?_⟩
    · simp [scriblAddFeature, htr]
    · simp [scriblAddFeature, htr]
    · simpa [scriblAddFeature, htr, trackAddFeature] using
        trackPlace_join_perm (3 / pixelsToNts0 c) f t.lanes

/-- Helper: in inclusive mode the per-feature decision never throws and
keeps exactly the features passing the four-branch test. -/
theorem sliceFeature_inclusive (frm til : ℚ) (f : Feature) :
    sliceFeature "inclusive" frm til f =
      Except.ok (if inclusiveTest frm til f then [f] else []) := by
  unfold sliceFeature inclusiveTest
  rw [if_pos rfl]
  by_cases h1 : frm ≤ f.position ∧ f.position ≤ til
  · simp [h1]
  · by_cases h2 : frm < f.position + f.length ∧ f.position + f.length < til
    · simp [h1, h2]
    · by_cases h3 : f.position < frm ∧ til < f.position + f.length
      · simp [h1, h2, h3]
      · by_cases h4 : frm < f.position ∧ f.position + f.length < til
        · simp [h1, h2, h3, h4]
        · simp [h1, h2, h3, h4]

/-- Helper: inclusive slicing of one lane filters it by the inclusion
test. -/
theorem sliceLane_inclusive (frm til : ℚ) (l : List Feature) :
    sliceLane "inclusive" frm til l =
      Except.ok (l.filter (inclusiveTest frm til)) := by
  induction l with
  | nil => rfl
  | cons f fs ih =>
    simp only [sliceLane, sliceFeature_inclusive, ih, List.filter_cons]
    by_cases h : inclusiveTest frm til f <;> simp [h]

/-- Helper: inclusive slicing of one track filters every lane. -/
theorem sliceTrack_inclusive (frm til : ℚ) (ls : List (List Feature)) :
    sliceTrack "inclusive" frm til ls =
      Except.ok (ls.map (List.filter (inclusiveTest frm til))) := by
  induction ls with
  | nil => rfl
  | cons l rest ih => simp [sliceTrack, sliceLane_inclusive, ih]

/-- Helper: inclusive slicing mirrors the track and lane structure and
filters every lane by the inclusion test. -/
theorem scriblSlice_inclusive (ts : List Track) (frm til : ℚ) :
    scriblSlice ts frm til "inclusive" =
      Except.ok (ts.map (fun t =>
        Track.mk (t.lanes.map (List.filter (inclusiveTest frm til))) t.drawStyle)) := by
  induction ts with
  | nil => rfl
  | cons t rest ih => simp [scriblSlice, sliceTrack_inclusive, ih]

/-- Helper: membership in the lane-filtered mirror of a layout. -/
theorem memLayout_filterMap (P : Feature → Bool) (ts : List Track) (f : Feature) :
    memLayout f (ts.map (fun t => Track.mk (t.lanes.map (List.filter P)) t.drawStyle)) ↔
      (memLayout f ts ∧ P f) := by
  unfold memLayout
  constructor
  · rintro ⟨t2, ht2, l2, hl2, hf⟩
    rw [List.mem_map] at ht2
    obtain ⟨t, ht, rfl⟩ := ht2
    simp only [List.mem_map] at hl2
    obtain ⟨l, hl, rfl⟩ := hl2
    rw [List.mem_filter] at hf
    exact ⟨⟨t, ht, l, hl, hf.1⟩, hf.2⟩
  · rintro ⟨⟨t, ht, l, hl, hf⟩, hP⟩
    refine ⟨_, List.mem_map_of_mem _ ht, _, ?_, List.mem_filter.mpr ⟨hf, hP⟩⟩
    exact List.mem_map_of_mem _ hl

/-- Helper: the per-feature slice decision can only throw the clone
ReferenceError. -/
theorem sliceFeature_error (ty : String) (frm til : ℚ) (f : Feature) (e : String)
    (h : sliceFeature ty frm til f = Except.error e) :
    e = "ReferenceError: f is not defined" := by
  unfold sliceFeature at h
  simp only [cloneGlyph] at h
  split_ifs at h <;> simp_all

/-- Helper: a lane slice can only throw the clone ReferenceError. -/
theorem sliceLane_error (ty : String) (frm til : ℚ) :
    ∀ (l : List Feature) (e : String),
      sliceLane ty frm til l = Except.error e →
      e = "ReferenceError: f is not defined" := by
  intro l
  induction l with
  | nil => intro e h; simp [sliceLane] at h
  | cons f fs ih =>
    intro e h
    unfold sliceLane at h
    cases hsf : sliceFeature ty frm til f with
    | error msg =>
      rw [hsf] at h
      cases h
      exact sliceFeature_error ty frm til f e hsf
    | ok xs =>
      rw [hsf] at h
      cases hrec : sliceLane ty frm til fs with
      | error msg =>
        rw [hrec] at h
        cases h
        exact ih e hrec
      | ok ys => rw [hrec] at h; cases h

/-- Helper: a track slice can only throw the clone ReferenceError. -/
theorem sliceTrack_error (ty : String) (frm til : ℚ) :
    ∀ (ls : List (List Feature)) (e : String),
      sliceTrack ty frm til ls = Except.error e →
      e = "ReferenceError: f is not defined" := by
  intro ls
  induction ls with
  | nil => intro e h; simp [sliceTrack] at h
  | cons l rest ih =>
    intro e h
    unfold sliceTrack at h
    cases hsl : sliceLane ty frm til l with
    | error msg =>
      rw [hsl] at h
      cases h
      exact sliceLane_error ty frm til l e hsl
    | ok l2 =>
      rw [hsl] at h
      cases hrec : sliceTrack ty frm til rest with
      | error msg =>
        rw [hrec] at h
        cases h
        exact ih e hrec
      | ok ls2 => rw [hrec] at h; cases h

/-- Helper: a chart slice can only throw the clone ReferenceError. -/
theorem scriblSlice_error (frm til : ℚ) (ty : String) :
    ∀ (ts : List Track) (e : String),
      scriblSlice ts frm til ty = Except.error e →
      e = "ReferenceError: f is not defined" := by
  intro ts
  induction ts with
  | nil => intro e h; simp [scriblSlice] at h
  | cons t rest ih =>
    intro e h
    unfold scriblSlice at h
    cases hst : sliceTrack ty frm til t.lanes with
    | error msg =>
      rw [hst] at h
      cases h
      exact sliceTrack_error ty frm til t.lanes e hst
    | ok ls =>
      rw [hst] at h
      cases hrec : scriblSlice rest frm til ty with
      | error msg =>
        rw [hrec] at h
        cases h
        exact ih e hrec
      | ok rest2 => rw [hrec] at h; cases h

/-- C3 (counterexample): with the range 100 to 200, the feature at position
50 of length 150 overlaps the closed interval [100, 200] (its start 50 is
at most 200 and its end 200 is at least 100), yet the inclusive slice drops
it, leaving an empty lane: inclusion is not equivalent to overlap with the
closed interval. -/
theorem slice_inclusive_counterexample :
    scriblSlice [Track.mk [[Feature.mk 50 150 "a"]] none] 100 200 "inclusive" =
      Except.ok [Track.mk [[]] none] ∧
    ¬ memLayout (Feature.mk 50 150 "a") [Track.mk [[]] none] ∧
    (50 : ℚ) ≤ 200 ∧ (100 : ℚ) ≤ 50 + 150 := by
  refine ⟨?_, ?_, by norm_num, by norm_num⟩
  · norm_num [scriblSlice, sliceTrack, sliceLane, sliceFeature]
  · intro h
    obtain ⟨t, ht, l, hl, hf⟩ := h
    simp only [List.mem_singleton] at ht
    subst ht
    simp only [List.mem_singleton] at hl
    subst hl
    simp at hf

/-- C3 (amended): for features of nonnegative length, the inclusive slice
keeps a feature exactly when its start lies in [from, to], or its end lies
strictly inside (from, to), or it starts before from and ends after to; the
lane and track grouping is mirrored and the call never fails. -/
theorem slice_inclusive_membership (ts : List Track) (frm til : ℚ)
    (hlen : ∀ t ∈ ts, ∀ l ∈ t.lanes, ∀ f ∈ l, 0 ≤ f.length) :
    ∃ res, scriblSlice ts frm til "inclusive" = Except.ok res ∧
      ∀ f : Feature, memLayout f res ↔
        (memLayout f ts ∧
          ((frm ≤ f.position ∧ f.position ≤ til) ∨
           (frm < f.position + f.length ∧ f.position + f.length < til) ∨
           (f.position < frm ∧ til < f.position + f.length))) := by
  refine ⟨_, scriblSlice_inclusive ts frm til, ?_⟩
  intro f
  rw [memLayout_filterMap]
  constructor
  · rintro ⟨hm, hP⟩
    refine ⟨hm, ?_⟩
    have hl0 : 0 ≤ f.length := by
      obtain ⟨t, ht, l, hl, hf⟩ := hm
      exact hlen t ht l hl f hf
    unfold inclusiveTest at hP
    rw [decide_eq_true_eq] at hP
    rcases hP with h | h | h | h
    · exact Or.inl h
    · exact Or.inr (Or.inl h)
    · exact Or.inr (Or.inr h)
    · exact Or.inl ⟨le_of_lt h.1, by linarith [h.2]⟩
  · rintro ⟨hm, hP⟩
    refine ⟨hm, ?_⟩
    unfold inclusiveTest
    rw [decide_eq_true_eq]
    tauto

/-- C3 witness: slicing the lane holding the features at 150 of length 100
and at 300 of length 10 with the range 100 to 200 keeps the first and drops
the second. -/
theorem slice_inclusive_membership_witness :
    (∀ t ∈ [Track.mk [[Feature.mk 150 100 "a", Feature.mk 300 10 "b"]] none],
      ∀ l ∈ t.lanes, ∀ f ∈ l, 0 ≤ f.length) ∧
    (∃ res,
      scriblSlice [Track.mk [[Feature.mk 150 100 "a", Feature.mk 300 10 "b"]] none]
          100 200 "inclusive" = Except.ok res ∧
      ∀ f : Feature, memLayout f res ↔
        (memLayout f [Track.mk [[Feature.mk 150 100 "a", Feature.mk 300 10 "b"]] none] ∧
          ((100 ≤ f.position ∧ f.position ≤ 200) ∨
           (100 < f.position + f.length ∧ f.position + f.length < 200) ∨
           (f.position < 100 ∧ 200 < f.position + f.length)))) :=
  ⟨by decide, slice_inclusive_membership _ 100 200 (by decide)⟩

/-- C8 (counterexample): slicing with from equal to to yields a layout that
still contains the feature starting exactly at the boundary, and slicing
with from greater than to neither fails nor returns an empty layout: the
spanning feature survives. -/
theorem slice_range_counterexample :
    scriblSlice [Track.mk [[Feature.mk 100 50 "a"]] none] 100 100 "inclusive" =
      Except.ok [Track.mk [[Feature.mk 100 50 "a"]] none] ∧
    memLayout (Feature.mk 100 50 "a") [Track.mk [[Feature.mk 100 50 "a"]] none] ∧
    scriblSlice [Track.mk [[Feature.mk 50 100 "b"]] none] 200 100 "inclusive" =
      Except.ok [Track.mk [[Feature.mk 50 100 "b"]] none] := by
  refine ⟨?_, by decide, ?_⟩ <;>
    norm_num [scriblSlice, sliceTrack, sliceLane, sliceFeature]

/-- C8 (amended): the slice performs no range validation at all: the only
error any slice can surface is the ReferenceError thrown by `Glyph.clone`
in strict mode, never an InvalidRange; and an inclusive slice with from
equal to to returns successfully with exactly the features that start at
the common boundary or strictly span it, which need not be an empty
layout. -/
theorem slice_no_range_validation :
    (∀ (ts : List Track) (frm til : ℚ) (ty : String) (e : String),
        scriblSlice ts frm til ty = Except.error e →
        e = "ReferenceError: f is not defined") ∧
    (∀ (ts : List Track) (c : ℚ),
        (∀ t ∈ ts, ∀ l ∈ t.lanes, ∀ f ∈ l, 0 ≤ f.length) →
        ∃ res, scriblSlice ts c c "inclusive" = Except.ok res ∧
          ∀ f : Feature, memLayout f res ↔
            (memLayout f ts ∧
              (f.position = c ∨ (f.position < c ∧ c < f.position + f.length)))) := by
  constructor
  · intro ts frm til ty e h
    exact scriblSlice_error frm til ty ts e h
  · intro ts c hlen
    refine ⟨_, scriblSlice_inclusive ts c c, ?_⟩
    intro f
    rw [memLayout_filterMap]
    constructor
    · rintro ⟨hm, hP⟩
      refine ⟨hm, ?_⟩
      have hl0 : 0 ≤ f.length := by
        obtain ⟨t, ht, l, hl, hf⟩ := hm
        exact hlen t ht l hl f hf
      unfold inclusiveTest at hP
      rw [decide_eq_true_eq] at hP
      rcases hP with h | h | h | h
      · exact Or.inl (le_antisymm h.2 h.1)
      · exact absurd (h.1.trans h.2) (lt_irrefl c)
      · exact Or.inr h
      · exact absurd (by linarith [h.1, h.2] : f.position < f.position) (lt_irrefl _)
    · rintro ⟨hm, hP⟩
      refine ⟨hm, ?_⟩
      unfold inclusiveTest
      rw [decide_eq_true_eq]
      rcases hP with h | h
      · exact Or.inl ⟨le_of_eq h.symm, le_of_eq h⟩
      · exact Or.inr (Or.inr (Or.inl h))

/-- C8 witness: a strict slice error instance and a from-equals-to
inclusive slice on a lane with a boundary feature. -/
theorem slice_no_range_validation_witness :
    ("ReferenceError: f is not defined" = "ReferenceError: f is not defined") ∧
    (∃ res,
      scriblSlice [Track.mk [[Feature.mk 100 50 "a"]] none] 100 100 "inclusive" =
        Except.ok res ∧
      ∀ f : Feature, memLayout f res ↔
        (memLayout f [Track.mk [[Feature.mk 100 50 "a"]] none] ∧
          (f.position = 100 ∨ (f.position < 100 ∧ 100 < f.position + f.length)))) :=
  ⟨slice_no_range_validation.1 [Track.mk [[Feature.mk 50 200 "x"]] none] 100 150 "strict" _
      (by norm_num [scriblSlice, sliceTrack, sliceLane, sliceFeature, cloneGlyph,
        show (("strict" : String) = "inclusive") = False from by decide]),
    slice_no_range_validation.2 [Track.mk [[Feature.mk 100 50 "a"]] none] 100 (by decide)⟩

/-- Helper: placing one feature of nonnegative length preserves, in every
lane, the adjacent-pairs gap chain and the nonnegativity of all stored
lengths. -/
theorem trackPlace_inv (gap : ℚ) (f : Feature) (hf : 0 ≤ f.length) :
    ∀ lanes : List (List Feature),
      (∀ l ∈ lanes, List.Chain' (gapR gap) l) →
      (∀ l ∈ lanes, ∀ x ∈ l, 0 ≤ x.length) →
      (∀ l ∈ trackPlace gap f lanes, List.Chain' (gapR gap) l) ∧
      (∀ l ∈ trackPlace gap f lanes, ∀ x ∈ l, 0 ≤ x.length) := by
  intro lanes
  induction lanes with
  | nil =>
    intro _ _
    constructor
    · intro l hl
      simp only [trackPlace, laneAddFeature, List.nil_append, List.mem_singleton] at hl
      subst hl
      exact List.chain'_singleton f
    · intro l hl x hx
      simp only [trackPlace, laneAddFeature, List.nil_append, List.mem_singleton] at hl
      subst hl
      simp only [List.mem_singleton] at hx
      subst hx
      exact hf
  | cons lane rest ih =>
    intro hch hln
    have hchl := hch lane (List.mem_cons_self lane rest)
    have hlnl := hln lane (List.mem_cons_self lane rest)
    have hchr : ∀ l ∈ rest, List.Chain' (gapR gap) l :=
      fun l hl => hch l (List.mem_cons_of_mem _ hl)
    have hlnr : ∀ l ∈ rest, ∀ x ∈ l, 0 ≤ x.length :=
      fun l hl => hln l (List.mem_cons_of_mem _ hl)
    cases hlast : lane.getLast? with
    | some prev =>
      by_cases hc : f.position - gap > prev.position + prev.length
      · constructor
        · intro l hl
          simp only [trackPlace, hlast, if_pos hc, List.mem_cons] at hl
          rcases hl with rfl | hl
          · unfold laneAddFeature
            rw [List.chain'_append]
            refine ⟨hchl, List.chain'_singleton f, ?_⟩
            intro x hx y hy
            rw [hlast, Option.mem_some_iff] at hx
            simp only [List.head?_cons, Option.mem_some_iff] at hy
            subst hx; subst hy
            exact hc
          · exact hchr l hl
        · intro l hl
          simp only [trackPlace, hlast, if_pos hc, List.mem_cons] at hl
          rcases hl with rfl | hl
          · intro x hx
            unfold laneAddFeature at hx
            rw [List.mem_append, List.mem_singleton] at hx
            rcases hx with hx | rfl
            · exact hlnl x hx
            · exact hf
          · exact hlnr l hl
      · have hrec := ih hchr hlnr
        constructor
        · intro l hl
          simp only [trackPlace, hlast, if_neg hc, List.mem_cons] at hl
          rcases hl with rfl | hl
          · exact hchl
          · exact hrec.1 l hl
        · intro l hl
          simp only [trackPlace, hlast, if_neg hc, List.mem_cons] at hl
          rcases hl with rfl | hl
          · exact hlnl
          · exact hrec.2 l hl
    | none =>
      have hrec := ih hchr hlnr
      constructor
      · intro l hl
        simp only [trackPlace, hlast, List.mem_cons] at hl
        rcases hl with rfl | hl
        · exact hchl
        · exact hrec.1 l hl
      · intro l hl
        simp only [trackPlace, hlast, List.mem_cons] at hl
        rcases hl with rfl | hl
        · exact hlnl
        · exact hrec.2 l hl

/-- Helper: when the gap is nonnegative and every stored length is
nonnegative, the adjacent-pairs gap chain of a lane implies the gap
invariant for every ordered pair of its features. -/
theorem chain_gapR_pairwise (gap : ℚ) (hgap : 0 ≤ gap) :
    ∀ l : List Feature, List.Chain' (gapR gap) l →
      (∀ x ∈ l, 0 ≤ x.length) → List.Pairwise (gapR gap) l := by
  intro l
  induction l with
  | nil => intro _ _; exact List.Pairwise.nil
  | cons a t ih =>
    intro hch hln
    cases t with
    | nil => exact List.pairwise_singleton _ a
    | cons b t2 =>
      rw [List.chain'_cons] at hch
      have hb : 0 ≤ b.length := hln b (List.mem_cons_of_mem a (List.mem_cons_self b t2))
      have hrest := ih hch.2 (fun x hx => hln x (List.mem_cons_of_mem a hx))
      refine List.Pairwise.cons ?_ hrest
      intro y hy
      rcases List.mem_cons.mp hy with rfl | hy
      · exact hch.1
      · have hby := (List.rel_of_pairwise_cons hrest) hy
        unfold gapR at hch hby ⊢
        linarith [hch.1]

/-- C2: for every chart with positive pixel width and a nondegenerate
scale, and every finite list of features of nonnegative length added in any
order through `Track.addFeature` starting from an empty track, every lane
of the resulting track satisfies the gap invariant for every ordered pair
of its features, with the gap of three pixel widths expressed in coordinate
units. -/
theorem laneAllocator_gap_invariant (c : Chart) (fs : List Feature)
    (hw : 0 < c.width) (hs : c.scaleMin < c.scaleMax)
    (hlen : ∀ f ∈ fs, 0 ≤ f.length) :
    ∀ l ∈ (fs.foldl (fun t f => trackAddFeature c t f) (Track.mk [] none)).lanes,
      List.Pairwise (gapR (3 / pixelsToNts0 c)) l := by
  have hgap : 0 ≤ 3 / pixelsToNts0 c := by
    have h1 : 0 < c.scaleMax - c.scaleMin := by linarith
    have h2 : 0 < pixelsToNts0 c := by unfold pixelsToNts0; exact div_pos hw h1
    positivity
  have main : ∀ (fs2 : List Feature) (t : Track),
      (∀ f ∈ fs2, 0 ≤ f.length) →
      (∀ l ∈ t.lanes, List.Chain' (gapR (3 / pixelsToNts0 c)) l) →
      (∀ l ∈ t.lanes, ∀ x ∈ l, 0 ≤ x.length) →
      (∀ l ∈ (fs2.foldl (fun t2 f => trackAddFeature c t2 f) t).lanes,
          List.Chain' (gapR (3 / pixelsToNts0 c)) l) ∧
      (∀ l ∈ (fs2.foldl (fun t2 f => trackAddFeature c t2 f) t).lanes,
          ∀ x ∈ l, 0 ≤ x.length) := by
    intro fs2
    induction fs2 with
    | nil => intro t _ hch hln; exact ⟨hch, hln⟩
    | cons f fs3 ih =>
      intro t hlen2 hch hln
      have hf : 0 ≤ f.length := hlen2 f (List.mem_cons_self f fs3)
      have hstep := trackPlace_inv (3 / pixelsToNts0 c) f hf t.lanes hch hln
      simp only [List.foldl_cons]
      exact ih (trackAddFeature c t f)
        (fun g hg => hlen2 g (List.mem_cons_of_mem f hg)) hstep.1 hstep.2
  have hres := main fs (Track.mk [] none) hlen (by simp) (by simp)
  intro l hl
  exact chain_gapR_pairwise _ hgap l (hres.1 l hl) (hres.2 l hl)

/-- C2 witness: on a 100 pixel chart with domain 0 to 100 (gap 3 units),
adding the features at 0 of length 10 and at 20 of length 5. -/
theorem laneAllocator_gap_invariant_witness :
    0 < (Chart.mk 100 0 100 []).width ∧
    (Chart.mk 100 0 100 []).scaleMin < (Chart.mk 100 0 100 []).scaleMax ∧
    (∀ f ∈ [Feature.mk 0 10 "a", Feature.mk 20 5 "b"], 0 ≤ f.length) ∧
    ∀ l ∈ (([Feature.mk 0 10 "a", Feature.mk 20 5 "b"]).foldl
        (fun t f => trackAddFeature (Chart.mk 100 0 100 []) t f) (Track.mk [] none)).lanes,
      List.Pairwise (gapR (3 / pixelsToNts0 (Chart.mk 100 0 100 []))) l :=
  ⟨by norm_num, by norm_num, by decide,
    laneAllocator_gap_invariant (Chart.mk 100 0 100 []) _ (by norm_num) (by norm_num) (by decide)⟩

/-- C7 (amended): for every positive major tick size, prettifying lowers a
nonnegative minimum to the greatest multiple of the tick size at or below
it, raises a negative minimum to the least multiple at or above it
(truncation toward zero), and replaces the maximum by the unique multiple
of the tick size lying in the half-open interval from max minus a tenth of
the size (exclusive) to max plus nine tenths of the size (inclusive) - the
nearest multiple strictly above max exactly when max exceeds the multiple
below it by at least a tenth of the size, and the multiple at or below max
otherwise. -/
theorem prettifyDomain_characterization (mn mx size : ℚ) (hs : 0 < size) :
    (0 ≤ mn → ∃ k : ℤ, prettifyMin mn size = k * size ∧
      (k : ℚ) * size ≤ mn ∧ mn < ((k : ℚ) + 1) * size) ∧
    (mn < 0 → ∃ k : ℤ, prettifyMin mn size = k * size ∧
      mn ≤ (k : ℚ) * size ∧ ((k : ℚ) - 1) * size < mn) ∧
    (∃ n : ℤ, prettifyMax mx size = n * size ∧
      mx - size / 10 < (n : ℚ) * size ∧ (n : ℚ) * size ≤ mx + 9 * size / 10) := by
  refine ⟨?_, ?_, ?_⟩
  · intro hmn
    refine ⟨⌊mn / size⌋, ?_, ?_, ?_⟩
    · unfold prettifyMin jsRem jsTrunc
      rw [if_pos (div_nonneg hmn hs.le)]
      ring
    · have hf := Int.floor_le (mn / size)
      calc (⌊mn / size⌋ : ℚ) * size ≤ mn / size * size :=
            mul_le_mul_of_nonneg_right hf hs.le
        _ = mn := div_mul_cancel₀ mn hs.ne'
    · have hf := Int.lt_floor_add_one (mn / size)
      have h2 := mul_lt_mul_of_pos_right hf hs
      rwa [div_mul_cancel₀ mn hs.ne'] at h2
  · intro hmn
    have hneg : ¬ 0 ≤ mn / size := not_le.mpr (div_neg_of_neg_of_pos hmn hs)
    refine ⟨⌈mn / size⌉, ?_, ?_, ?_⟩
    · unfold prettifyMin jsRem jsTrunc
      rw [if_neg hneg]
      ring
    · have hc := Int.le_ceil (mn / size)
      calc mn = mn / size * size := (div_mul_cancel₀ mn hs.ne').symm
        _ ≤ (⌈mn / size⌉ : ℚ) * size := mul_le_mul_of_nonneg_right hc hs.le
    · have hc := Int.ceil_lt_add_one (mn / size)
      have h2 : ((⌈mn / size⌉ : ℚ) - 1) * size < mn / size * size := by
        apply mul_lt_mul_of_pos_right _ hs
        linarith
      rwa [div_mul_cancel₀ mn hs.ne'] at h2
  · refine ⟨⌊mx / size + 9/10⌋, ?_, ?_, ?_⟩
    · unfold prettifyMax jsRound
      have harg : mx / size + 2/5 + 1/2 = mx / size + 9/10 := by ring
      rw [harg]
    · have hfl := Int.lt_floor_add_one (mx / size + 9/10)
      have h2 := mul_lt_mul_of_pos_right hfl hs
      rw [add_mul, div_mul_cancel₀ mx hs.ne', add_mul, one_mul] at h2
      linarith
    · have hfl := Int.floor_le (mx / size + 9/10)
      have h2 := mul_le_mul_of_nonneg_right hfl hs.le
      rw [add_mul, div_mul_cancel₀ mx hs.ne'] at h2
      linarith

/-- C7 witness at minimum 7, maximum 1010, tick size 5. -/
theorem prettifyDomain_characterization_witness :
    0 < (5 : ℚ) ∧
    ((0 ≤ (7 : ℚ) → ∃ k : ℤ, prettifyMin 7 5 = k * 5 ∧
        (k : ℚ) * 5 ≤ 7 ∧ (7 : ℚ) < ((k : ℚ) + 1) * 5) ∧
     ((7 : ℚ) < 0 → ∃ k : ℤ, prettifyMin 7 5 = k * 5 ∧
        (7 : ℚ) ≤ (k : ℚ) * 5 ∧ ((k : ℚ) - 1) * 5 < 7) ∧
     (∃ n : ℤ, prettifyMax 1010 5 = n * 5 ∧
        (1010 : ℚ) - 5 / 10 < (n : ℚ) * 5 ∧ (n : ℚ) * 5 ≤ 1010 + 9 * 5 / 10)) :=
  ⟨by norm_num, prettifyDomain_characterization 7 1010 5 (by norm_num)⟩

/-- Helper: the digit count of a natural number strictly between
consecutive powers of ten. -/
theorem numDigits_eq (d n : ℕ) (h1 : 10 ^ d ≤ n) (h2 : n < 10 ^ (d + 1)) :
    numDigits n = d + 1 := by
  unfold numDigits
  rw [Nat.log_eq_of_pow_le_of_lt_pow h1 h2]

/-- Helper: truncation of a nonnegative rational is its floor. -/
theorem jsTrunc_of_nonneg (q : ℚ) (h : 0 ≤ q) : jsTrunc q = ⌊q⌋ := if_pos h

/-- Helper: truncation fixes every integer. -/
theorem jsTrunc_intCast (n : ℤ) : jsTrunc (n : ℚ) = n := by
  unfold jsTrunc
  split_ifs <;> simp

/-- Helper: the snap stage written out with its three intermediate values
rewritten to explicit parameters. -/
theorem majorTickSnap_formula (t : ℚ) (b : ℕ) (k : ℤ) (D : ℕ)
    (hb : numDigits (jsTrunc t).toNat - 1 = b)
    (hk : ⌈t / 10 ^ b⌉ = k)
    (hD : numDigits (jsTrunc ((k : ℚ) * 10 ^ b)).toNat = D) :
    majorTickSnap t =
      (if 1/10 < (k : ℚ) * 10 ^ b / 10 ^ D ∧ (k : ℚ) * 10 ^ b / 10 ^ D ≤ 1/2
        then (1 : ℚ)/2
       else if 1/2 < (k : ℚ) * 10 ^ b / 10 ^ D then 1
       else (k : ℚ) * 10 ^ b / 10 ^ D) * 10 ^ D := by
  simp only [majorTickSnap]
  rw [hb, hk, hD]

/-- Helper: digit count of the truncation of a rational between powers of
ten. -/
theorem floor_toNat_digits (d : ℕ) (t : ℚ) (h0 : 0 ≤ t)
    (h1 : (10 : ℚ) ^ d ≤ t) (h2 : t < 10 ^ (d + 1)) :
    numDigits (jsTrunc t).toNat = d + 1 := by
  rw [jsTrunc_of_nonneg t h0]
  have i1 : ((10 ^ d : ℕ) : ℤ) ≤ ⌊t⌋ := Int.le_floor.mpr (by push_cast; exact h1)
  have i2 : ⌊t⌋ < ((10 ^ (d + 1) : ℕ) : ℤ) := Int.floor_lt.mpr (by push_cast; exact h2)
  have hge : (0 : ℤ) ≤ ⌊t⌋ := le_trans (by positivity) i1
  apply numDigits_eq
  · have : ((10 ^ d : ℕ) : ℤ) ≤ (⌊t⌋.toNat : ℤ) := by
      rw [Int.toNat_of_nonneg hge]
      exact i1
    exact_mod_cast this
  · have : ((⌊t⌋.toNat : ℤ)) < ((10 ^ (d + 1) : ℕ) : ℤ) := by
      rw [Int.toNat_of_nonneg hge]
      exact i2
    exact_mod_cast this

/-- Helper: digit count of a single-digit multiple of a power of ten. -/
theorem tick_digits (d K : ℕ) (hK1 : 1 ≤ K) (hK9 : K ≤ 9) :
    numDigits (jsTrunc ((K : ℚ) * 10 ^ d)).toNat = d + 1 := by
  have hcast : ((K : ℚ) * 10 ^ d) = (((K * 10 ^ d : ℕ) : ℤ) : ℚ) := by push_cast; ring
  rw [hcast, jsTrunc_intCast, Int.toNat_natCast]
  have hp : 0 < 10 ^ d := pow_pos (by norm_num) d
  apply numDigits_eq
  · nlinarith
  · rw [pow_succ]
    nlinarith

/-- Helper: digit count of ten times a power of ten. -/
theorem tick_digits_ten (d : ℕ) :
    numDigits (jsTrunc ((10 : ℚ) * 10 ^ d)).toNat = d + 2 := by
  have hcast : ((10 : ℚ) * 10 ^ d) = (((10 ^ (d + 1) : ℕ) : ℤ) : ℚ) := by
    push_cast
    rw [pow_succ]
    ring
  rw [hcast, jsTrunc_intCast, Int.toNat_natCast]
  apply numDigits_eq (d + 1)
  · exact le_refl _
  · exact Nat.pow_lt_pow_right (by norm_num) (by omega)

/-- Helper: the snap of a positive value at most one is one. -/
theorem majorTickSnap_unit (t : ℚ) (h0 : 0 < t) (h1 : t ≤ 1) :
    majorTickSnap t = 1 := by
  have hb : numDigits (jsTrunc t).toNat - 1 = 0 := by
    rw [jsTrunc_of_nonneg t h0.le]
    have hlo : 0 ≤ ⌊t⌋ := Int.floor_nonneg.mpr h0.le
    have hhi : ⌊t⌋ ≤ 1 := by
      have := Int.floor_le_floor (α := ℚ) h1
      rwa [Int.floor_one] at this
    interval_cases h : ⌊t⌋ <;> simp [numDigits]
  have hk : ⌈t / 10 ^ (0 : ℕ)⌉ = 1 := by
    rw [pow_zero, div_one]
    refine le_antisymm (Int.ceil_le.mpr (by exact_mod_cast h1)) ?_
    have : 0 < ⌈t⌉ := Int.ceil_pos.mpr h0
    omega
  have hD : numDigits (jsTrunc (((1 : ℤ) : ℚ) * 10 ^ (0 : ℕ))).toNat = 1 := by
    norm_num
    rw [show ((1 : ℚ)) = (((1 : ℕ) : ℤ) : ℚ) by norm_num, jsTrunc_intCast,
      Int.toNat_natCast]
    exact numDigits_eq 0 1 (by norm_num) (by norm_num)
  rw [majorTickSnap_formula t 0 1 1 hb hk hD]
  norm_num

/-- Helper: values in the lower half of a decade snap to the half-decade. -/
theorem majorTickSnap_low (d : ℕ) (t : ℚ) (h1 : (10 : ℚ) ^ d < t)
    (h2 : t ≤ 5 * 10 ^ d) : majorTickSnap t = 5 * 10 ^ d := by
  have hp : (0 : ℚ) < 10 ^ d := by positivity
  have ht0 : 0 ≤ t := le_of_lt (lt_of_le_of_lt hp.le h1)
  have hlt : t < 10 ^ (d + 1) := by
    rw [pow_succ]
    nlinarith
  have hb : numDigits (jsTrunc t).toNat - 1 = d := by
    rw [floor_toNat_digits d t ht0 h1.le hlt]
    omega
  have hceil2 : 2 ≤ ⌈t / 10 ^ d⌉ := by
    have hgt : ((1 : ℤ) : ℚ) < t / 10 ^ d := by
      push_cast
      exact (one_lt_div hp).mpr h1
    have := Int.lt_ceil.mpr hgt
    omega
  have hceil5 : ⌈t / 10 ^ d⌉ ≤ 5 := Int.ceil_le.mpr (by
    rw [div_le_iff₀ hp]
    push_cast
    linarith)
  obtain ⟨K, hKeq⟩ := Int.eq_ofNat_of_zero_le
    (le_trans (by norm_num) hceil2 : (0 : ℤ) ≤ ⌈t / 10 ^ d⌉)
  have hK2 : 2 ≤ K := by exact_mod_cast hKeq ▸ hceil2
  have hK5 : K ≤ 5 := by exact_mod_cast hKeq ▸ hceil5
  have hD := tick_digits d K (by omega) (by omega)
  rw [majorTickSnap_formula t d (K : ℤ) (d + 1) hb hKeq hD]
  have hfd : ((K : ℤ) : ℚ) * 10 ^ d / 10 ^ (d + 1) = (K : ℚ) / 10 := by
    rw [pow_succ]
    field_simp
    ring
  rw [hfd]
  have hc1 : (1 : ℚ) / 10 < (K : ℚ) / 10 := by
    have : (1 : ℚ) < (K : ℚ) := by exact_mod_cast (by omega : 1 < K)
    linarith
  have hc2 : (K : ℚ) / 10 ≤ 1 / 2 := by
    have : (K : ℚ) ≤ 5 := by exact_mod_cast hK5
    linarith
  rw [if_pos ⟨hc1, hc2⟩, pow_succ]
  ring

/-- Helper: values in the upper half of a decade snap to the next full
decade. -/
theorem majorTickSnap_high (d : ℕ) (t : ℚ) (h1 : 5 * (10 : ℚ) ^ d < t)
    (h2 : t ≤ 10 ^ (d + 1)) : majorTickSnap t = 10 ^ (d + 1) := by
  have hp : (0 : ℚ) < 10 ^ d := by positivity
  have hp1 : (0 : ℚ) < 10 ^ (d + 1) := by positivity
  have ht0 : 0 ≤ t := by nlinarith
  rcases eq_or_lt_of_le h2 with heq | hlt
  · -- t is exactly the next power of ten
    subst heq
    have hb : numDigits (jsTrunc ((10 : ℚ) ^ (d + 1))).toNat - 1 = d + 1 := by
      rw [floor_toNat_digits (d + 1) _ ht0 (le_refl _)
        (by rw [pow_succ (10 : ℚ) (d + 1)]; nlinarith)]
      omega
    have hk : ⌈(10 : ℚ) ^ (d + 1) / 10 ^ (d + 1)⌉ = 1 := by
      rw [div_self hp1.ne']
      exact Int.ceil_one
    have hD : numDigits (jsTrunc (((1 : ℤ) : ℚ) * 10 ^ (d + 1))).toNat = d + 2 := by
      rw [show (((1 : ℤ) : ℚ) * 10 ^ (d + 1)) = (((10 ^ (d + 1) : ℕ) : ℤ) : ℚ) by
        push_cast; ring, jsTrunc_intCast, Int.toNat_natCast]
      exact numDigits_eq (d + 1) _ (le_refl _) (Nat.pow_lt_pow_right (by norm_num) (by omega))
    rw [majorTickSnap_formula _ (d + 1) 1 (d + 2) hb hk hD]
    have hfd : ((1 : ℤ) : ℚ) * 10 ^ (d + 1) / 10 ^ (d + 2) = 1 / 10 := by
      rw [pow_succ (10 : ℚ) (d + 1)]
      field_simp
    rw [hfd]
    norm_num
    rw [pow_succ (10 : ℚ) (d + 1)]
    ring
  · -- t lies strictly inside the decade
    have hb : numDigits (jsTrunc t).toNat - 1 = d := by
      rw [floor_toNat_digits d t ht0 (by nlinarith) hlt]
      omega
    have hceil6 : 5 < ⌈t / 10 ^ d⌉ := by
      have hgt : ((5 : ℤ) : ℚ) < t / 10 ^ d := by
        push_cast
        rw [lt_div_iff₀ hp]
        linarith
      exact Int.lt_ceil.mpr hgt
    have hceil10 : ⌈t / 10 ^ d⌉ ≤ 10 := Int.ceil_le.mpr (by
      rw [div_le_iff₀ hp]
      push_cast
      rw [pow_succ] at h2
      linarith)
    obtain ⟨K, hKeq⟩ := Int.eq_ofNat_of_zero_le
      (le_trans (by norm_num) hceil6.le : (0 : ℤ) ≤ ⌈t / 10 ^ d⌉)
    have hK6 : 5 < K := by exact_mod_cast hKeq ▸ hceil6
    have hK10 : K ≤ 10 := by exact_mod_cast hKeq ▸ hceil10
    rcases Nat.lt_or_ge K 10 with hK9 | hKten
    · -- leading digit between 6 and 9
      have hD := tick_digits d K (by omega) (by omega)
      rw [majorTickSnap_formula t d (K : ℤ) (d + 1) hb hKeq hD]
      have hfd : ((K : ℤ) : ℚ) * 10 ^ d / 10 ^ (d + 1) = (K : ℚ) / 10 := by
        rw [pow_succ]
        field_simp
        ring
      rw [hfd]
      have hgt : (1 : ℚ) / 2 < (K : ℚ) / 10 := by
        have : (6 : ℚ) ≤ (K : ℚ) := by exact_mod_cast (by omega : 6 ≤ K)
        linarith
      rw [if_neg (by intro hcon; linarith [hcon.2]), if_pos hgt, one_mul]
    · -- the rounded-up tick overflows to the next power of ten
      have hKeq10 : K = 10 := by omega
      subst hKeq10
      have hD : numDigits (jsTrunc ((((10 : ℕ) : ℤ) : ℚ) * 10 ^ d)).toNat = d + 2 := by
        have := tick_digits_ten d
        simpa using this
      rw [majorTickSnap_formula t d ((10 : ℕ) : ℤ) (d + 2) hb hKeq hD]
      have hfd : (((10 : ℕ) : ℤ) : ℚ) * 10 ^ d / 10 ^ (d + 2) = 1 / 10 := by
        rw [pow_succ (10 : ℚ) (d + 1), pow_succ (10 : ℚ) d]
        push_cast
        field_simp
        ring
      rw [hfd]
      norm_num
      rw [pow_succ (10 : ℚ) (d + 1), pow_succ (10 : ℚ) d]
      ring

/-- Helper: every rational above one lies in a unique decade. -/
theorem exists_decade (t : ℚ) (h : 1 < t) :
    ∃ d : ℕ, (10 : ℚ) ^ d < t ∧ t ≤ 10 ^ (d + 1) := by
  obtain ⟨n, hn⟩ := pow_unbounded_of_one_lt t (by norm_num : (1 : ℚ) < 10)
  have key : ∀ m : ℕ, t ≤ 10 ^ m → ∃ d : ℕ, (10 : ℚ) ^ d < t ∧ t ≤ 10 ^ (d + 1) := by
    intro m
    induction m with
    | zero => intro h0; norm_num at h0; linarith
    | succ m2 ih =>
      intro hle
      by_cases hc : t ≤ 10 ^ m2
      · exact ih hc
      · exact ⟨m2, not_le.mp hc, hle⟩
  exact key n hn.le

/-- Helper: the snap of any positive value is a full decade or a
half-decade. -/
theorem majorTickSnap_canonical (t : ℚ) (ht : 0 < t) :
    ∃ d : ℕ, majorTickSnap t = 10 ^ d ∨ majorTickSnap t = 5 * 10 ^ d := by
  rcases le_or_lt t 1 with h1 | h1
  · refine ⟨0, Or.inl ?_⟩
    rw [majorTickSnap_unit t ht h1]
    norm_num
  · obtain ⟨d, hd1, hd2⟩ := exists_decade t h1
    rcases le_or_lt t (5 * 10 ^ d) with h5 | h5
    · exact ⟨d, Or.inr (majorTickSnap_low d t hd1 h5)⟩
    · exact ⟨d + 1, Or.inl (majorTickSnap_high d t h5 hd2)⟩

/-- C5: the major tick selection always returns a full decade or a
half-decade (never values such as 2000 or 3000), and on the domain 0 to
10000 with pixel width 760 and label buffer 10 it returns a value in the
set 1000, 5000, 10000 for every fixed label-width estimate between 28 and
750 pixels; the embedding is a function of its inputs, hence
deterministic. -/
theorem determineMajorTick_canonical :
    (∀ labelWidth buffer width mn mx : ℚ,
        0 < width → 0 < labelWidth + buffer → mn < mx →
        ∃ d : ℕ, determineMajorTick labelWidth buffer width mn mx = 10 ^ d ∨
          determineMajorTick labelWidth buffer width mn mx = 5 * 10 ^ d) ∧
    (∀ w : ℚ, 28 < w → w ≤ 750 →
        determineMajorTick w 10 760 0 10000 = 1000 ∨
        determineMajorTick w 10 760 0 10000 = 5000 ∨
        determineMajorTick w 10 760 0 10000 = 10000) := by
  constructor
  · intro labelWidth buffer width mn mx hw hlb hmn
    have harg : (0 : ℚ) < (mx - mn) / (width / (labelWidth + buffer)) :=
      div_pos (by linarith) (div_pos hw hlb)
    simp only [determineMajorTick]
    exact majorTickSnap_canonical _ harg
  · intro w h28 h750
    have hw10 : (0 : ℚ) < w + 10 := by linarith
    have hred : determineMajorTick w 10 760 0 10000 =
        majorTickSnap (250 * (w + 10) / 19) := by
      simp only [determineMajorTick]
      congr 1
      field_simp
      ring
    rw [hred]
    rcases le_or_lt w 66 with h66 | h66
    · left
      have hlo : 5 * (10 : ℚ) ^ 2 < 250 * (w + 10) / 19 := by
        rw [lt_div_iff₀ (by norm_num : (0 : ℚ) < 19)]
        norm_num
        linarith
      have hhi : 250 * (w + 10) / 19 ≤ (10 : ℚ) ^ (2 + 1) := by
        rw [div_le_iff₀ (by norm_num : (0 : ℚ) < 19)]
        norm_num
        linarith
      rw [majorTickSnap_high 2 _ hlo hhi]
      norm_num
    · rcases le_or_lt w 370 with h370 | h370
      · right; left
        have hlo : (10 : ℚ) ^ 3 < 250 * (w + 10) / 19 := by
          rw [lt_div_iff₀ (by norm_num : (0 : ℚ) < 19)]
          norm_num
          linarith
        have hhi : 250 * (w + 10) / 19 ≤ 5 * (10 : ℚ) ^ 3 := by
          rw [div_le_iff₀ (by norm_num : (0 : ℚ) < 19)]
          norm_num
          linarith
        rw [majorTickSnap_low 3 _ hlo hhi]
        norm_num
      · right; right
        have hlo : 5 * (10 : ℚ) ^ 3 < 250 * (w + 10) / 19 := by
          rw [lt_div_iff₀ (by norm_num : (0 : ℚ) < 19)]
          norm_num
          linarith
        have hhi : 250 * (w + 10) / 19 ≤ (10 : ℚ) ^ (3 + 1) := by
          rw [div_le_iff₀ (by norm_num : (0 : ℚ) < 19)]
          norm_num
          linarith
        rw [majorTickSnap_high 3 _ hlo hhi]
        norm_num

/-- C5 witness at label width 40 on the domain 0 to 10000 with pixel width
760 and buffer 10. -/
theorem determineMajorTick_canonical_witness :
    (0 < (760 : ℚ) ∧ 0 < (40 : ℚ) + 10 ∧ (0 : ℚ) < 10000 ∧
      (∃ d : ℕ, determineMajorTick 40 10 760 0 10000 = 10 ^ d ∨
        determineMajorTick 40 10 760 0 10000 = 5 * 10 ^ d)) ∧
    (28 < (40 : ℚ) ∧ (40 : ℚ) ≤ 750 ∧
      (determineMajorTick 40 10 760 0 10000 = 1000 ∨
       determineMajorTick 40 10 760 0 10000 = 5000 ∨
       determineMajorTick 40 10 760 0 10000 = 10000)) :=
  ⟨⟨by norm_num, by norm_num, by norm_num,
      determineMajorTick_canonical.1 40 10 760 0 10000 (by norm_num) (by norm_num)
        (by norm_num)⟩,
   ⟨by norm_num, by norm_num,
      determineMajorTick_canonical.2 40 (by norm_num) (by norm_num)⟩⟩
